import Mathlib

/-!
Verification development for the WhatsApp chat analysis dashboard
(source: `streamlit_app.py`).

The development shallowly embeds the core pipeline of the program:

* `parse_line` / `parse_chat` — the line grammar
  `(\d{1,2}/\d{1,2}/\d{4}), (\d{2}:\d{2}) - (.+?): (.*)` applied with
  `re.match` (anchored at the start of the line), with the name cleaned by
  `name.split('(')[0].strip()`, and lines stripped of surrounding
  whitespace (`str.strip`) before parsing.
* `to_datetime` — `pd.to_datetime(date + " " + time, dayfirst=True,
  errors='coerce')`: day-first calendar combination producing an optional
  timestamp (`none` models the NaT sentinel).
* the sidebar filters — participant membership (`isin`), optional exact
  date equality, and keyword search
  (`str.contains(keyword, case=False, na=False)`, which interprets the
  keyword as a regular expression).
* `duration_summary` — per participant: sort by timestamp, message count,
  and active duration as the sum of successive deltas that are at most
  `max_idle_minutes = 15` minutes (first delta filled with zero).
* `hourly_counts` / `minute_counts` — groupby counts keyed by
  (hour, name) and (minute bucket, name); rows with the NaT sentinel
  carry no valid key and are dropped by groupby.

Timestamps are modelled as minutes since the civil epoch (an `Int`),
computed with the standard Gregorian days-from-civil algorithm; `Option`
models the NaT sentinel. Machine floats never carry program logic here
(pandas timedeltas are exact at minute granularity), so exact integer
arithmetic is a faithful model.
-/

namespace WhatsappTemp

/-- Whitespace characters removed by the Python `str.strip()` call in
`parse_chat` (ASCII whitespace; the rarely used extra Unicode space
characters Python also strips play no role in any claim). -/
def pyIsSpace (c : Char) : Bool :=
  c = ' ' ∨ c = '\t' ∨ c = '\n' ∨ c = '\r' ∨ c = '\x0b' ∨ c = '\x0c'

/-- Python `str.strip()` on a character list: drops whitespace from both
ends (leading and trailing). -/
def pyStripList (cs : List Char) : List Char :=
  ((cs.dropWhile pyIsSpace).reverse.dropWhile pyIsSpace).reverse

/-- Python `str.strip()` on strings. -/
def pyStrip (s : String) : String :=
  String.mk (pyStripList s.data)

/-- One parsed chat line, the `[date, time, name, message]` list returned
by `parse_line` (groups of `line_pattern` with the name cleaned). -/
structure Message where
  date : String
  time : String
  sender : String
  text : String
deriving Repr, DecidableEq, Inhabited

/-- Matches `\d{1,2}` followed by the literal separator `sep` (the regex
is greedy with backtracking, but a digit never equals the separator, so
the match is deterministic): returns the digits and the input after the
separator. -/
def takeDigits12 (sep : Char) : List Char → Option (List Char × List Char)
  | c1 :: c2 :: c3 :: rest =>
    if c1.isDigit then
      if c2.isDigit then
        if c3 = sep then some ([c1, c2], rest) else none
      else if c2 = sep then some ([c1], c3 :: rest) else none
    else none
  | [c1, c2] =>
    if c1.isDigit ∧ c2 = sep then some ([c1], []) else none
  | _ => none

/-- Matches exactly `n` digits (`\d{n}`): returns the digits and the rest. -/
def takeDigitsN : Nat → List Char → Option (List Char × List Char)
  | 0, cs => some ([], cs)
  | _ + 1, [] => none
  | n + 1, c :: cs =>
    if c.isDigit then
      match takeDigitsN n cs with
      | some (ds, rest) => some (c :: ds, rest)
      | none => none
    else none

/-- Matches a literal character sequence: returns the rest of the input. -/
def expectLit : List Char → List Char → Option (List Char)
  | [], cs => some cs
  | _ :: _, [] => none
  | l :: ls, c :: cs => if c = l then expectLit ls cs else none

/-- Worker for the lazy group `(.+?): ` of `line_pattern` once at least
one character has been consumed into `acc`: the lazy quantifier prefers
stopping, so a leading `": "` ends the capture; otherwise one more
non-newline character is consumed.  Since the rest of the pattern
(`(.*)`) never fails, the regex engine never backtracks past this first
stop. -/
def scanNameGo (acc : List Char) : List Char → Option (List Char × List Char)
  | [] => none
  | c :: cs =>
    if c = ':' ∧ cs.head? = some ' ' then some (acc, cs.tail)
    else if c = '\n' then none
    else scanNameGo (acc ++ [c]) cs

/-- The lazy group `(.+?): ` of `line_pattern`: consumes the shortest
nonempty run of non-newline characters up to the first following literal
`": "`, returning the captured run and the input after the `": "`.  The
`+` forces the first character to be consumed unconditionally. -/
def scanName (input : List Char) : Option (List Char × List Char) :=
  match input with
  | c :: cs => if c = '\n' then none else scanNameGo [c] cs
  | [] => none

/-- The anchored match of `line_pattern` up to and including the literal
`" - "`: returns the date capture (group 1), the time capture (group 2)
and the remaining input. -/
def matchPrefix (cs : List Char) : Option (String × String × List Char) := do
  let (d, r1) ← takeDigits12 '/' cs
  let (m, r2) ← takeDigits12 '/' r1
  let (y, r3) ← takeDigitsN 4 r2
  let r4 ← expectLit [',', ' '] r3
  let (hh, r5) ← takeDigitsN 2 r4
  let r6 ← expectLit [':'] r5
  let (mi, r7) ← takeDigitsN 2 r6
  let r8 ← expectLit [' ', '-', ' '] r7
  some (String.mk (d ++ '/' :: m ++ '/' :: y), String.mk (hh ++ ':' :: mi), r8)

/-- The function `parse_line`: `line_pattern.match(line)` followed by
`name.split('(')[0].strip()`.  The trailing group `(.*)` takes everything
up to a newline (the regex dot does not cross newlines, and `re.match`
does not require reaching the end of the string). -/
def parse_line (line : String) : Option Message :=
  match matchPrefix line.data with
  | none => none
  | some (d, t, tail) =>
    match scanName tail with
    | none => none
    | some (raw, rest) =>
      some { date := d, time := t
             sender := String.mk (pyStripList (raw.takeWhile (· ≠ '(')))
             text := String.mk (rest.takeWhile (· ≠ '\n')) }

/-- The function `parse_chat`: decode each line (modelled inputs are
already decoded text), `strip()` it, parse it, and keep the successfully
parsed records in input order. -/
def parse_chat (lines : List String) : List Message :=
  lines.filterMap (fun l => parse_line (pyStrip l))

/-- Value of a digit run (all characters are decimal digits). -/
def digitsToNat (cs : List Char) : Nat :=
  cs.foldl (fun n c => n * 10 + (c.toNat - '0'.toNat)) 0

/-- Gregorian leap-year rule. -/
def isLeapYear (y : Int) : Bool :=
  y % 4 = 0 ∧ (y % 100 ≠ 0 ∨ y % 400 = 0)

/-- Length of a Gregorian month. -/
def daysInMonth (y m : Int) : Int :=
  if m = 2 then (if isLeapYear y then 29 else 28)
  else if m = 4 ∨ m = 6 ∨ m = 9 ∨ m = 11 then 30 else 31

/-- Day, month and year name a real Gregorian calendar date. -/
def validDMY (d m y : Int) : Bool :=
  1 ≤ m ∧ m ≤ 12 ∧ 1 ≤ d ∧ d ≤ daysInMonth y m

/-- Days since the civil epoch 1970-01-01 of a valid Gregorian date
(standard days-from-civil algorithm). -/
def daysFromCivil (y m d : Int) : Int :=
  let y2 := if m ≤ 2 then y - 1 else y
  let era := (if 0 ≤ y2 then y2 else y2 - 399) / 400
  let yoe := y2 - era * 400
  let mp := (m + 9) % 12
  let doy := (153 * mp + 2) / 5 + d - 1
  let doe := yoe * 365 + yoe / 4 - yoe / 100 + doy
  era * 146097 + doe - 719468

/-- First whole minute representable by a pandas nanosecond `Timestamp`
(`Timestamp.min` is 1677-09-21 00:12:43.145224193). -/
def minPandasTs : Int := daysFromCivil 1677 9 21 * 1440 + (12 * 60 + 13)

/-- Last whole minute representable by a pandas nanosecond `Timestamp`
(`Timestamp.max` is 2262-04-11 23:47:16.854775807). -/
def maxPandasTs : Int := daysFromCivil 2262 4 11 * 1440 + (23 * 60 + 47)

/-- Python `str.split` with a one-character separator: `"a/b".split`
style splitting, where adjacent separators yield empty fields. -/
def splitOnChar (sep : Char) : List Char → List (List Char)
  | [] => [[]]
  | c :: rest =>
    let r := splitOnChar sep rest
    if c = sep then [] :: r
    else
      match r with
      | h :: t => (c :: h) :: t
      | [] => [[c]]

/-- The timestamp combination
`pd.to_datetime(df['Date'] + " " + df['Time'], dayfirst=True,
errors='coerce')`: the day-first format `"%d/%m/%Y %H:%M"` is applied and
any text that does not name a valid calendar moment (or falls outside the
pandas `Timestamp` range) coerces to the NaT sentinel, modelled as
`none`.  A valid moment becomes its minute count since the civil epoch. -/
def to_datetime (dateS timeS : String) : Option Int :=
  match splitOnChar '/' dateS.data, splitOnChar ':' timeS.data with
  | [ds, ms, ys], [hs, mins] =>
    if ds ≠ [] ∧ ms ≠ [] ∧ ys ≠ [] ∧ hs ≠ [] ∧ mins ≠ [] ∧
        (ds ++ ms ++ ys ++ hs ++ mins).all Char.isDigit then
      let d : Int := digitsToNat ds
      let m : Int := digitsToNat ms
      let y : Int := digitsToNat ys
      let hh : Int := digitsToNat hs
      let mi : Int := digitsToNat mins
      if hh ≤ 23 ∧ mi ≤ 59 ∧ validDMY d m y then
        let t := daysFromCivil y m d * 1440 + hh * 60 + mi
        if minPandasTs ≤ t ∧ t ≤ maxPandasTs then some t else none
      else none
    else none
  | _, _ => none

/-- One row of the normalized DataFrame: sender, message text and the
`DateTime` column (`none` is the NaT sentinel).  The derived columns
`HourRound` (`dt.hour`) and `MinuteRound` (`dt.floor('T')`) are recovered
from the timestamp: `hourOfTs` below, and the timestamp itself (already
at whole-minute resolution). -/
structure NMsg where
  sender : String
  text : String
  ts : Option Int
deriving Repr, DecidableEq

/-- Rows 41–45 of the source: attach the combined timestamp to each
parsed record (order-preserving). -/
def normalize (msgs : List Message) : List NMsg :=
  msgs.map (fun m => { sender := m.sender, text := m.text,
                       ts := to_datetime m.date m.time })

/-- The `HourRound` column: `dt.hour` of a valid timestamp. -/
def hourOfTs (t : Int) : Int := (t % 1440) / 60

/-- The `Date` column after normalization: `dt.date`, the civil day of a
valid timestamp. -/
def dayOfTs (t : Int) : Int := t / 1440

/-- The participant filter `df[df['Name'].isin(selected_participant)]`:
exact string membership. -/
def filter_participants (selected : List String) (msgs : List NMsg) :
    List NMsg :=
  msgs.filter (fun m => selected.contains m.sender)

/-- The date filter `filtered_df[filtered_df['Date'] == selected_date]`,
applied only when a specific date was chosen; a NaT date never equals a
real date. -/
def filter_date (sel : Option Int) (msgs : List NMsg) : List NMsg :=
  match sel with
  | none => msgs
  | some day =>
    msgs.filter (fun m =>
      match m.ts with
      | some t => dayOfTs t == day
      | none => false)

/-- Atoms of the Python regular-expression fragment modelled for the
keyword filter: literal characters and the metacharacter `.` (any
character but a newline).  `str.contains` interprets its pattern as a
regular expression; the claims exercise only this fragment. -/
inductive RAtom where
  | lit (c : Char)
  | dot
deriving Repr, DecidableEq

/-- Characters that are special in Python regular expressions. -/
def reMeta : List Char :=
  ['\\', '^', '$', '*', '+', '?', '\x7b', '\x7d', '[', ']', '(', ')', '|']

/-- Compile a keyword into the modelled regex fragment: `.` becomes the
any-character atom, ordinary characters match literally.  Patterns using
other metacharacters are outside the modelled fragment and compile to
`none`; no theorem below depends on that branch. -/
def compileKeyword (s : String) : Option (List RAtom) :=
  s.data.mapM (fun c =>
    if c = '.' then some RAtom.dot
    else if reMeta.contains c then none
    else some (RAtom.lit c))

/-- One atom against one character, under `re.IGNORECASE`
(`case=False`). -/
def atomMatches (a : RAtom) (c : Char) : Bool :=
  match a with
  | .lit l => l.toLower = c.toLower
  | .dot => c ≠ '\n'

/-- Match a compiled pattern at the start of the input. -/
def matchHere : List RAtom → List Char → Bool
  | [], _ => true
  | _ :: _, [] => false
  | a :: ps, c :: cs => atomMatches a c && matchHere ps cs

/-- Python `re.search`: try the pattern at every position. -/
def reSearch (p : List RAtom) : List Char → Bool
  | [] => matchHere p []
  | c :: cs => matchHere p (c :: cs) || reSearch p cs

/-- The keyword predicate
`df['Message'].str.contains(keyword, case=False, na=False)` on one
message text (message texts are always strings here, so `na=False` never
fires). -/
def str_contains (keyword text : String) : Bool :=
  match compileKeyword keyword with
  | some pat => reSearch pat text.data
  | none => false

/-- The keyword filter, guarded by Python truthiness (`if keyword:`): an
empty keyword applies no filter. -/
def filter_keyword (keyword : String) (msgs : List NMsg) : List NMsg :=
  if keyword = "" then msgs
  else msgs.filter (fun m => str_contains keyword m.text)

/-- Rows 58–62 of the source: the three filters composed in program
order. -/
def filtered_df (msgs : List NMsg) (selected : List String)
    (selDate : Option Int) (keyword : String) : List NMsg :=
  filter_keyword keyword (filter_date selDate (filter_participants selected msgs))

/-- The idle threshold of the duration summary. -/
def max_idle_minutes : Int := 15

/-- Comparison used by `sort_values('DateTime')`: ascending timestamps,
NaT sorted last. -/
def tsLe (a b : Option Int) : Bool :=
  match a, b with
  | some x, some y => decide (x ≤ y)
  | some _, none => true
  | none, some _ => false
  | none, none => true

/-- Insertion into a `tsLe`-sorted list. -/
def insertSorted (m : NMsg) : List NMsg → List NMsg
  | [] => [m]
  | x :: xs => if tsLe m.ts x.ts then m :: x :: xs else x :: insertSorted m xs

/-- The sort `person_df.sort_values('DateTime')` (insertion sort; the
claims do not depend on how the sort breaks ties). -/
def sort_values (l : List NMsg) : List NMsg := l.foldr insertSorted []

/-- Helper for `diff()`: successive differences against the previous
timestamp; a difference touching NaT is itself NaT, which the
`fillna(pd.Timedelta(seconds=0))` of the source turns into zero. -/
def diffGo (prev : Option Int) : List (Option Int) → List Int
  | [] => []
  | t :: ts =>
    (match prev, t with
     | some a, some b => b - a
     | _, _ => 0) :: diffGo t ts

/-- The line `person_df['DateTime'].diff().fillna(pd.Timedelta(seconds=0))`:
the first delta is filled with zero. -/
def diffFillZero : List (Option Int) → List Int
  | [] => []
  | t0 :: rest => 0 :: diffGo t0 rest

/-- The line `deltas[deltas <= pd.Timedelta(minutes=max_idle_minutes)].sum()`:
total of the deltas at most the idle threshold, in minutes. -/
def active_time (tss : List (Option Int)) : Int :=
  ((diffFillZero tss).filter (fun d => decide (d ≤ max_idle_minutes))).sum

/-- One row of the duration summary table: participant, `Messages Sent`
(`person_df.shape[0]`) and `Active Chat Duration` both as exact minutes
and as the rendered `f"{h}h {m}m"` string. -/
structure Summary where
  participant : String
  messagesSent : Nat
  activeMinutes : Int
  activeStr : String
deriving Repr, DecidableEq

/-- Rendering of the active duration:
`divmod(total_seconds, 3600)` then `divmod(remainder, 60)`. -/
def fmtHM (mins : Int) : String :=
  toString (mins * 60 / 3600) ++ "h " ++ toString (mins * 60 % 3600 / 60) ++ "m"

/-- Rows 70–89 of the source: the duration summary loop.  A participant
whose filtered message set is empty appends no row (`if not
person_df.empty:`).  The unused `total_duration` computation of rows
76–78 feeds nothing in the appended row and is omitted. -/
def duration_summary (filtered : List NMsg) (selected : List String) :
    List Summary :=
  selected.filterMap (fun p =>
    let person := sort_values (filtered.filter (fun m => m.sender == p))
    if person.isEmpty then none
    else
      let act := active_time (person.map (fun m => m.ts))
      some { participant := p, messagesSent := person.length,
             activeMinutes := act, activeStr := fmtHM act })

/-- Rows with a valid (non-NaT) timestamp: the rows that carry a groupby
key in the hour and minute aggregations (pandas groupby drops NaN/NaT
keys). -/
def validMsgs (l : List NMsg) : List NMsg := l.filter (fun m => m.ts.isSome)

/-- Row 96 of the source:
`filtered_df.groupby(['HourRound', 'Name']).size()` as a list of
`((hour, name), count)` entries, one entry per distinct key.  The order
pandas gives the groups (sorted keys) is not modelled; every claim about
this table is order-independent. -/
def hourly_counts (filtered : List NMsg) : List ((Int × String) × Nat) :=
  let keys := (validMsgs filtered).map
    (fun m => (hourOfTs (m.ts.getD 0), m.sender))
  keys.dedup.map (fun k => (k, keys.count k))

/-- The `'<br>'.join` aggregation of the minute table. -/
def joinBr (l : List String) : String := String.intercalate "<br>" l

/-- Rows 119–122 of the source: `groupby(['MinuteRound', 'Name'])` with a
message count and the concatenated message texts per key (message texts
are strings, so the pandas `count` equals the group size).  Group order
is not modelled, as for `hourly_counts`. -/
def minute_counts (filtered : List NMsg) :
    List ((Int × String) × (Nat × String)) :=
  let v := validMsgs filtered
  let keys := v.map (fun m => (m.ts.getD 0, m.sender))
  keys.dedup.map (fun k =>
    (k, (keys.count k,
         joinBr ((v.filter (fun m => (m.ts.getD 0, m.sender) == k)).map
           (fun m => m.text)))))

/-! Helper lemmas about the duration-summary machinery. -/

theorem length_insertSorted (m : NMsg) (l : List NMsg) :
    (insertSorted m l).length = l.length + 1 := by
  induction l with
  | nil => rfl
  | cons x xs ih =>
    simp only [insertSorted]
    split <;> simp [ih]

theorem length_sort_values (l : List NMsg) :
    (sort_values l).length = l.length := by
  induction l with
  | nil => rfl
  | cons x xs ih =>
    simp only [sort_values, List.foldr] at *
    rw [length_insertSorted, ih]
    rfl

theorem isEmpty_sort_values (l : List NMsg) :
    (sort_values l).isEmpty = l.isEmpty := by
  rcases l with _ | ⟨x, xs⟩
  · rfl
  · have h := length_sort_values (x :: xs)
    rcases hs : sort_values (x :: xs) with _ | ⟨y, ys⟩
    · rw [hs] at h; simp at h
    · rfl

theorem insertSorted_some (x : NMsg) (hx : x.ts.isSome) :
    ∀ a b : List NMsg, (∀ m ∈ b, m.ts = none) →
      ∃ a1 a2, a = a1 ++ a2 ∧
        insertSorted x (a ++ b) = a1 ++ (x :: (a2 ++ b)) := by
  intro a
  induction a with
  | nil =>
    intro b hb
    refine ⟨[], [], rfl, ?_⟩
    rcases b with _ | ⟨y, ys⟩
    · rfl
    · have hy : y.ts = none := hb y (by simp)
      obtain ⟨v, hv⟩ := Option.isSome_iff_exists.mp hx
      simp [insertSorted, tsLe, hv, hy]
  | cons z zs ih =>
    intro b hb
    by_cases hle : tsLe x.ts z.ts = true
    · exact ⟨[], z :: zs, rfl, by simp [insertSorted, hle]⟩
    · obtain ⟨a1, a2, hsplit, heq⟩ := ih b hb
      refine ⟨z :: a1, a2, by simp [hsplit], ?_⟩
      rw [List.cons_append]
      show (if tsLe x.ts z.ts = true then x :: z :: (zs ++ b)
            else z :: insertSorted x (zs ++ b)) = (z :: a1) ++ x :: (a2 ++ b)
      rw [if_neg hle, heq]
      simp

theorem insertSorted_none (x : NMsg) (hx : x.ts = none) :
    ∀ a b : List NMsg, (∀ m ∈ a, m.ts.isSome) →
      insertSorted x (a ++ b) = a ++ insertSorted x b := by
  intro a
  induction a with
  | nil => intro b _; rfl
  | cons z zs ih =>
    intro b ha
    have hz : z.ts.isSome := ha z (by simp)
    obtain ⟨w, hw⟩ := Option.isSome_iff_exists.mp hz
    have hle : tsLe x.ts z.ts = false := by simp [tsLe, hx, hw]
    rw [List.cons_append]
    show (if tsLe x.ts z.ts = true then x :: z :: (zs ++ b)
          else z :: insertSorted x (zs ++ b)) = z :: zs ++ insertSorted x b
    rw [if_neg (by simp [hle]), ih b (fun m hm => ha m (by simp [hm]))]
    rfl

theorem sort_values_split (l : List NMsg) :
    ∃ a b, sort_values l = a ++ b ∧ (∀ m ∈ a, m.ts.isSome) ∧
      (∀ m ∈ b, m.ts = none) := by
  induction l with
  | nil => exact ⟨[], [], rfl, by simp, by simp⟩
  | cons x xs ih =>
    obtain ⟨a, b, heq, ha, hb⟩ := ih
    have hstep : sort_values (x :: xs) = insertSorted x (sort_values xs) := rfl
    rcases hx : x.ts with _ | v
    · refine ⟨a, x :: b, ?_, ha, ?_⟩
      · rw [hstep, heq, insertSorted_none x hx a b ha]
        congr 1
        rcases b with _ | ⟨y, ys⟩
        · rfl
        · have hy : y.ts = none := hb y (by simp)
          simp [insertSorted, tsLe, hx, hy]
      · intro m hm
        rcases List.mem_cons.mp hm with rfl | hm
        · exact hx
        · exact hb m hm
    · have hx2 : x.ts.isSome := by simp [hx]
      obtain ⟨a1, a2, hsplit, hins⟩ := insertSorted_some x hx2 a b hb
      refine ⟨a1 ++ x :: a2, b, ?_, ?_, hb⟩
      · rw [hstep, heq, hins]; simp
      · intro m hm
        simp only [List.mem_append, List.mem_cons] at hm
        rcases hm with hm | hm | hm
        · exact ha m (by rw [hsplit]; exact List.mem_append_left _ hm)
        · rw [hm]; exact hx2
        · exact ha m (by rw [hsplit]; exact List.mem_append_right _ hm)

theorem diffGo_all_none (prev : Option Int) (n : List (Option Int))
    (h : ∀ t ∈ n, t = none) :
    diffGo prev n = List.replicate n.length 0 := by
  induction n generalizing prev with
  | nil => rfl
  | cons t ts ih =>
    have ht : t = none := h t (by simp)
    subst ht
    have : ∀ t ∈ ts, t = none := fun t ht => h t (by simp [ht])
    rcases prev with _ | v <;>
      simp [diffGo, ih none this, List.replicate_succ]

theorem diffGo_append_nones (prev : Option Int) (xs n : List (Option Int))
    (h : ∀ t ∈ n, t = none) :
    diffGo prev (xs ++ n) = diffGo prev xs ++ List.replicate n.length 0 := by
  induction xs generalizing prev with
  | nil => simp [diffGo, diffGo_all_none prev n h]
  | cons x rest ih => simp [diffGo, ih x]

theorem diffFillZero_append_nones (s n : List (Option Int))
    (h : ∀ t ∈ n, t = none) :
    diffFillZero (s ++ n) = diffFillZero s ++ List.replicate n.length 0 := by
  rcases s with _ | ⟨t0, rest⟩
  · rcases n with _ | ⟨u0, urest⟩
    · rfl
    · have hu : u0 = none := h u0 (by simp)
      subst hu
      have : ∀ t ∈ urest, t = none := fun t ht => h t (by simp [ht])
      simp [diffFillZero, diffGo_all_none none urest this, List.replicate_succ]
  · simp [diffFillZero, diffGo_append_nones t0 rest n h]

theorem active_time_append_nones (s n : List (Option Int))
    (h : ∀ t ∈ n, t = none) :
    active_time (s ++ n) = active_time s := by
  unfold active_time
  rw [diffFillZero_append_nones s n h, List.filter_append]
  have hrep : (List.replicate n.length (0 : Int)).filter
      (fun d => decide (d ≤ max_idle_minutes)) =
      List.replicate n.length 0 := by
    apply List.filter_eq_self.mpr
    intro a ha
    have : a = 0 := List.eq_of_mem_replicate ha
    simp [this, max_idle_minutes]
  rw [hrep]
  simp

theorem active_time_drops_sentinels (l : List NMsg) :
    active_time ((sort_values l).map (fun m => m.ts)) =
      active_time ((validMsgs (sort_values l)).map (fun m => m.ts)) := by
  obtain ⟨a, b, heq, ha, hb⟩ := sort_values_split l
  have hvalid : validMsgs (sort_values l) = a := by
    rw [heq]
    unfold validMsgs
    rw [List.filter_append]
    rw [List.filter_eq_self.mpr (fun m hm => ha m hm)]
    rw [List.filter_eq_nil_iff.mpr (fun m hm => by simp [hb m hm])]
    simp
  rw [hvalid, heq, List.map_append]
  exact active_time_append_nones _ _ (by
    intro t ht
    simp only [List.mem_map] at ht
    obtain ⟨m, hm, rfl⟩ := ht
    exact hb m hm)

/-! Claim C1. -/

/-- Counterexample to claim C1: with one requested participant and an
empty filtered set, `duration_summary` yields no row at all, not a row
with zero message count and zero active duration. -/
theorem c1_counterexample :
    duration_summary ([] : List NMsg) ["A"] = [] := by
  decide

/-- Claim C1 as amended: the duration summary has one row per requested
participant having at least one filtered message, in the order the
participants are requested; a requested participant with zero filtered
messages is omitted from the output. -/
theorem c1_amended (filtered : List NMsg) (selected : List String) :
    (duration_summary filtered selected).map (fun s => s.participant) =
      selected.filter
        (fun p => !(filtered.filter (fun m => m.sender == p)).isEmpty) := by
  induction selected with
  | nil => rfl
  | cons p ps ih =>
    have h2 : (sort_values (filtered.filter
        (fun m => m.sender == p))).isEmpty =
          (filtered.filter (fun m => m.sender == p)).isEmpty :=
      isEmpty_sort_values _
    rcases hemp : (filtered.filter (fun m => m.sender == p)).isEmpty with _ | _ <;>
      rw [hemp] at h2 <;>
      simp at h2 <;>
      simp only [duration_summary] at ih ⊢ <;>
      rw [List.filterMap_cons, List.filter_cons] <;>
      simp [h2, hemp] <;>
      simpa using ih

/-! Claim C2. -/

/-- Counterexample to claim C2: a participant with one valid-timestamp
message and one sentinel-timestamp message gets `Messages Sent = 2`
(the sentinel record is counted), although only one filtered message has
a valid timestamp. -/
theorem c2_counterexample :
    duration_summary (normalize (parse_chat
        ["1/1/2024, 09:00 - A: x", "99/99/2024, 12:00 - A: y"])) ["A"] =
      [{ participant := "A", messagesSent := 2, activeMinutes := 0,
         activeStr := "0h 0m" }] ∧
    (validMsgs (normalize (parse_chat
        ["1/1/2024, 09:00 - A: x", "99/99/2024, 12:00 - A: y"]))).length
      = 1 := by
  constructor <;> decide

/-- Claim C2 as amended: sentinel-timestamp records are excluded from the
active-duration computation (removing them before the delta computation
changes nothing), but they ARE counted in the message count of the
summary row, which equals the number of all filtered messages of that
participant, valid timestamp or not. -/
theorem c2_amended (filtered : List NMsg) (selected : List String)
    (s : Summary) (hs : s ∈ duration_summary filtered selected) :
    s.messagesSent =
      (filtered.filter (fun m => m.sender == s.participant)).length ∧
    s.activeMinutes =
      active_time ((validMsgs (sort_values (filtered.filter
        (fun m => m.sender == s.participant)))).map (fun m => m.ts)) := by
  unfold duration_summary at hs
  simp only [List.mem_filterMap] at hs
  obtain ⟨p, hp, hfp⟩ := hs
  by_cases hemp : (sort_values (filtered.filter
      (fun m => m.sender == p))).isEmpty = true
  · simp [hemp] at hfp
  · simp only [if_neg hemp] at hfp
    have hseq := Option.some.inj hfp
    subst hseq
    exact ⟨length_sort_values _, active_time_drops_sentinels _⟩

/-- Witness for the amended claim C2 at a concrete input: participant A
with one valid-timestamp message and one sentinel message. -/
theorem c2_witness :
    (Summary.mk "A" 2 0 "0h 0m").messagesSent =
      (([⟨"A", "x", some 0⟩, ⟨"A", "y", none⟩] : List NMsg).filter
        (fun m => m.sender == (Summary.mk "A" 2 0 "0h 0m").participant)).length ∧
    (Summary.mk "A" 2 0 "0h 0m").activeMinutes =
      active_time ((validMsgs (sort_values
        (([⟨"A", "x", some 0⟩, ⟨"A", "y", none⟩] : List NMsg).filter
          (fun m => m.sender ==
            (Summary.mk "A" 2 0 "0h 0m").participant)))).map (fun m => m.ts)) :=
  c2_amended [⟨"A", "x", some 0⟩, ⟨"A", "y", none⟩] ["A"]
    (Summary.mk "A" 2 0 "0h 0m") (by decide)

/-! Claim C3. -/

/-- Claim C3, as stated: three messages of one participant at `T`,
`T + 10` minutes and `T + 30` minutes yield `messageCount = 3` and an
active duration of exactly 10 minutes — the first delta counts as zero,
the 10-minute gap is within the fixed 15-minute idle threshold, and the
20-minute gap is excluded entirely. -/
theorem c3_idle_gap (T : Int) (p x y z : String) :
    duration_summary
        [⟨p, x, some T⟩, ⟨p, y, some (T + 10)⟩, ⟨p, z, some (T + 30)⟩] [p] =
      [{ participant := p, messagesSent := 3, activeMinutes := 10,
         activeStr := "0h 10m" }] := by
  have h1 : tsLe (some (T + 10)) (some (T + 30)) = true := by
    simp [tsLe]
  have h2 : tsLe (some T) (some (T + 10)) = true := by
    simp [tsLe]
  have h3 : (T + 10) - T = 10 := by omega
  have h4 : (T + 30) - (T + 10) = 20 := by omega
  have hfilt : List.filter (fun m => m.sender == p)
      ([⟨p, x, some T⟩, ⟨p, y, some (T + 10)⟩,
        ⟨p, z, some (T + 30)⟩] : List NMsg) =
      [⟨p, x, some T⟩, ⟨p, y, some (T + 10)⟩, ⟨p, z, some (T + 30)⟩] := by
    simp
  have hsort : sort_values ([⟨p, x, some T⟩, ⟨p, y, some (T + 10)⟩,
      ⟨p, z, some (T + 30)⟩] : List NMsg) =
      [⟨p, x, some T⟩, ⟨p, y, some (T + 10)⟩, ⟨p, z, some (T + 30)⟩] := by
    show insertSorted ⟨p, x, some T⟩ (insertSorted ⟨p, y, some (T + 10)⟩
      (insertSorted ⟨p, z, some (T + 30)⟩ [])) = _
    rw [show insertSorted ⟨p, z, some (T + 30)⟩ ([] : List NMsg) =
      [⟨p, z, some (T + 30)⟩] from rfl]
    rw [show insertSorted ⟨p, y, some (T + 10)⟩ [⟨p, z, some (T + 30)⟩] =
        [⟨p, y, some (T + 10)⟩, ⟨p, z, some (T + 30)⟩] from by
      simp [insertSorted, h1]]
    simp [insertSorted, h2]
  have hdeltas : diffFillZero (List.map (fun m => m.ts)
      ([⟨p, x, some T⟩, ⟨p, y, some (T + 10)⟩,
        ⟨p, z, some (T + 30)⟩] : List NMsg)) = [0, 10, 20] := by
    simp [diffFillZero, diffGo, h3, h4]
  have hact : active_time (List.map (fun m => m.ts)
      ([⟨p, x, some T⟩, ⟨p, y, some (T + 10)⟩,
        ⟨p, z, some (T + 30)⟩] : List NMsg)) = 10 := by
    unfold active_time
    rw [hdeltas]
    decide
  unfold duration_summary
  rw [List.filterMap_cons, List.filterMap_nil]
  simp only [hfilt, hsort, hact]
  simp [hact]
  decide

/-! Claim C4. -/

theorem validMsgs_idem (l : List NMsg) :
    validMsgs (validMsgs l) = validMsgs l := by
  simp [validMsgs, List.filter_filter]

theorem count_beq_eq_count_deq (k : Int × String) (l : List (Int × String)) :
    l.count k = @List.count _ instBEqOfDecidableEq k l := by
  induction l with
  | nil => rfl
  | cons a t ih =>
    rw [List.count_cons, @List.count_cons _ instBEqOfDecidableEq, ih]
    by_cases h : a = k <;> simp [instBEqOfDecidableEq, h]

theorem sum_map_count_dedup_keys (keys : List (Int × String)) :
    (keys.dedup.map (fun k => keys.count k)).sum = keys.length := by
  simp only [count_beq_eq_count_deq]
  exact List.sum_map_count_dedup_eq_length keys

/-- Claim C4: the hour-level counts sum to the number of filtered
messages with valid timestamps, the minute-level counts do too, and
sentinel-timestamp messages contribute to no bucket of either
aggregation (restricting the input to valid-timestamp rows changes
neither table). -/
theorem c4_counts_sum (filtered : List NMsg) :
    ((hourly_counts filtered).map (fun e => e.2)).sum
        = (validMsgs filtered).length ∧
    ((minute_counts filtered).map (fun e => e.2.1)).sum
        = (validMsgs filtered).length ∧
    hourly_counts filtered = hourly_counts (validMsgs filtered) ∧
    minute_counts filtered = minute_counts (validMsgs filtered) := by
  refine ⟨?_, ?_, ?_, ?_⟩
  · unfold hourly_counts
    rw [List.map_map]
    have hc : ((fun (e : (Int × String) × Nat) => e.2) ∘
        (fun k => (k, ((validMsgs filtered).map
          (fun m => (hourOfTs (m.ts.getD 0), m.sender))).count k))) =
        fun k => ((validMsgs filtered).map
          (fun m => (hourOfTs (m.ts.getD 0), m.sender))).count k := rfl
    rw [hc, sum_map_count_dedup_keys, List.length_map]
  · unfold minute_counts
    rw [List.map_map]
    rw [show ((fun (e : (Int × String) × Nat × String) => e.2.1) ∘
        (fun k => (k, (((validMsgs filtered).map
            (fun m => (m.ts.getD 0, m.sender))).count k,
          joinBr (((validMsgs filtered).filter
            (fun m => (m.ts.getD 0, m.sender) == k)).map (fun m => m.text)))))) =
        fun k => ((validMsgs filtered).map
          (fun m => (m.ts.getD 0, m.sender))).count k from rfl]
    rw [sum_map_count_dedup_keys, List.length_map]
  · unfold hourly_counts
    rw [validMsgs_idem]
  · unfold minute_counts
    rw [validMsgs_idem]

/-! Claim C5. -/

/-- Claim C5: ingestion produces exactly the records of the lines that
match the grammar (after the strip applied by `parse_chat`), in original
relative order — so the output length equals the number of matching
lines, and zero matching lines yield the empty list. -/
theorem c5_ingest_order (lines : List String) :
    parse_chat lines =
      (lines.filter (fun l => (parse_line (pyStrip l)).isSome)).map
        (fun l => (parse_line (pyStrip l)).getD default) ∧
    (parse_chat lines).length =
      lines.countP (fun l => (parse_line (pyStrip l)).isSome) := by
  have h1 : parse_chat lines =
      (lines.filter (fun l => (parse_line (pyStrip l)).isSome)).map
        (fun l => (parse_line (pyStrip l)).getD default) := by
    induction lines with
    | nil => rfl
    | cons a ls ih =>
      cases h : parse_line (pyStrip a) with
      | none =>
        simp only [parse_chat] at ih ⊢
        rw [List.filterMap_cons, h, List.filter_cons]
        simp [h, ih]
      | some m =>
        simp only [parse_chat] at ih ⊢
        rw [List.filterMap_cons, h, List.filter_cons]
        simp [h, ih]
  refine ⟨h1, ?_⟩
  rw [h1, List.length_map, List.countP_eq_length_filter]

/-! Claim C6. -/

/-- Modelled from the spec: the claim-side reading of the keyword filter,
keeping a message when its text contains the keyword as a
case-insensitive substring.  To be compared with the code-side
`str_contains`, which interprets the keyword as a regular expression. -/
def containsCISubstring (keyword text : String) : Prop :=
  (keyword.data.map Char.toLower) <:+: (text.data.map Char.toLower)

instance (keyword text : String) : Decidable (containsCISubstring keyword text) :=
  List.decidableInfix _ _

theorem mapAtoms_lits (cs : List Char)
    (h : ∀ c ∈ cs, c ≠ '.' ∧ reMeta.contains c = false) :
    cs.mapM (fun c =>
      if c = '.' then some RAtom.dot
      else if reMeta.contains c then none
      else some (RAtom.lit c)) = some (cs.map RAtom.lit) := by
  induction cs with
  | nil => rfl
  | cons c rest ih =>
    obtain ⟨h1, h2⟩ := h c (by simp)
    rw [List.mapM_cons, if_neg h1, if_neg (by simpa using h2)]
    rw [ih (fun d hd => h d (by simp [hd]))]
    rfl

theorem compileKeyword_eq_lits (s : String)
    (h : ∀ c ∈ s.data, c ≠ '.' ∧ reMeta.contains c = false) :
    compileKeyword s = some (s.data.map RAtom.lit) := by
  unfold compileKeyword
  exact mapAtoms_lits s.data h

theorem matchHere_lits (ks : List Char) :
    ∀ ds, (matchHere (ks.map RAtom.lit) ds = true ↔
      ks.map Char.toLower <+: ds.map Char.toLower) := by
  induction ks with
  | nil => intro ds; simp [matchHere]
  | cons k ks ih =>
    intro ds
    cases ds with
    | nil => simp [matchHere]
    | cons d ds2 =>
      simp [matchHere, atomMatches, List.cons_prefix_cons, ih ds2]

theorem reSearch_lits (ks : List Char) :
    ∀ ds, (reSearch (ks.map RAtom.lit) ds = true ↔
      ks.map Char.toLower <:+: ds.map Char.toLower) := by
  intro ds
  induction ds with
  | nil =>
    show matchHere _ _ = true ↔ _
    simp [matchHere_lits]
  | cons d ds2 ih =>
    show (matchHere _ _ || reSearch _ _) = true ↔ _
    rw [List.map_cons, List.infix_cons_iff]
    simp only [Bool.or_eq_true, matchHere_lits, ih, List.map_cons]

/-- Counterexample to claim C6: the keyword is handed to `str.contains`,
which reads it as a regular expression, so the keyword `.` keeps the
message text `a` although `a` does not contain the substring `.` in any
case. -/
theorem c6_counterexample :
    filter_keyword "." [⟨"A", "a", some 0⟩] = [⟨"A", "a", some 0⟩] ∧
    ¬ containsCISubstring "." "a" := by
  constructor
  · decide
  · decide

/-- Claim C6 as amended: for a non-empty keyword containing no regular
expression metacharacter (the keyword is interpreted as a regex, so
metacharacters like `.` change the meaning), the filter keeps exactly
the messages whose text contains the keyword as a case-insensitive
substring, and empty message text never matches. -/
theorem c6_amended (keyword : String) (msgs : List NMsg) (m : NMsg)
    (hne : keyword ≠ "")
    (hmeta : ∀ c ∈ keyword.data, c ≠ '.' ∧ reMeta.contains c = false) :
    (m ∈ filter_keyword keyword msgs ↔
      m ∈ msgs ∧ containsCISubstring keyword m.text) ∧
    str_contains keyword "" = false := by
  have hpat : compileKeyword keyword = some (keyword.data.map RAtom.lit) :=
    compileKeyword_eq_lits _ hmeta
  have hsc : ∀ txt : String, str_contains keyword txt =
      reSearch (keyword.data.map RAtom.lit) txt.data := by
    intro txt
    unfold str_contains
    rw [hpat]
  constructor
  · rw [filter_keyword, if_neg hne, List.mem_filter, hsc m.text]
    constructor
    · rintro ⟨hm, hc⟩
      exact ⟨hm, (reSearch_lits _ _).mp hc⟩
    · rintro ⟨hm, hc⟩
      exact ⟨hm, (reSearch_lits _ _).mpr hc⟩
  · rw [hsc ""]
    have hkd : keyword.data ≠ [] := fun hnil => hne (String.ext hnil)
    show matchHere (keyword.data.map RAtom.lit) [] = false
    cases hkd2 : keyword.data with
    | nil => exact absurd hkd2 hkd
    | cons c cs => rfl

/-- Witness for the amended claim C6: keyword `HI` against message text
`hi there`. -/
theorem c6_witness :
    ((⟨"Alice", "hi there", some 0⟩ : NMsg) ∈
        filter_keyword "HI" [⟨"Alice", "hi there", some 0⟩] ↔
      (⟨"Alice", "hi there", some 0⟩ : NMsg) ∈
          ([⟨"Alice", "hi there", some 0⟩] : List NMsg) ∧
        containsCISubstring "HI" "hi there") ∧
    str_contains "HI" "" = false :=
  c6_amended "HI" [⟨"Alice", "hi there", some 0⟩]
    ⟨"Alice", "hi there", some 0⟩ (by decide) (by decide)

/-! Claim C7. -/

/-- Soundness of the day and month matcher: the consumed input is the
captured digits followed by the separator. -/
theorem takeDigits12_sound (sep : Char) :
    ∀ cs ds rest, takeDigits12 sep cs = some (ds, rest) →
      cs = ds ++ sep :: rest := by
  intro cs ds rest h
  match cs with
  | [] => simp [takeDigits12] at h
  | [c1] => simp [takeDigits12] at h
  | [c1, c2] =>
    simp only [takeDigits12] at h
    split_ifs at h with h1
    obtain ⟨hd, hsep⟩ := h1
    simp only [Option.some.injEq, Prod.mk.injEq] at h
    obtain ⟨rfl, rfl⟩ := h
    simp [hsep]
  | c1 :: c2 :: c3 :: r =>
    simp only [takeDigits12] at h
    split_ifs at h with h1 h2 h3 h4
    · simp only [Option.some.injEq, Prod.mk.injEq] at h
      obtain ⟨rfl, rfl⟩ := h
      subst h3
      rfl
    · simp only [Option.some.injEq, Prod.mk.injEq] at h
      obtain ⟨rfl, rfl⟩ := h
      subst h4
      rfl

/-- Soundness of the fixed-width digit matcher. -/
theorem takeDigitsN_sound :
    ∀ (n : Nat) (cs ds rest : List Char),
      takeDigitsN n cs = some (ds, rest) → cs = ds ++ rest := by
  intro n
  induction n with
  | zero =>
    intro cs ds rest h
    simp only [takeDigitsN, Option.some.injEq, Prod.mk.injEq] at h
    obtain ⟨rfl, rfl⟩ := h
    rfl
  | succ k ih =>
    intro cs ds rest h
    match cs with
    | [] => simp [takeDigitsN] at h
    | c :: cs2 =>
      simp only [takeDigitsN] at h
      split_ifs at h with h1
      cases h2 : takeDigitsN k cs2 with
      | none => rw [h2] at h; simp at h
      | some pr =>
        obtain ⟨ds2, rest2⟩ := pr
        rw [h2] at h
        simp only [Option.some.injEq, Prod.mk.injEq] at h
        obtain ⟨rfl, rfl⟩ := h
        rw [List.cons_append, ← ih cs2 ds2 rest2 h2]

/-- Soundness of the literal matcher. -/
theorem expectLit_sound :
    ∀ (lit cs rest : List Char), expectLit lit cs = some rest →
      cs = lit ++ rest := by
  intro lit
  induction lit with
  | nil =>
    intro cs rest h
    simp only [expectLit, Option.some.injEq] at h
    rw [h]
    rfl
  | cons l ls ih =>
    intro cs rest h
    match cs with
    | [] => simp [expectLit] at h
    | c :: cs2 =>
      simp only [expectLit] at h
      split_ifs at h with h1
      subst h1
      rw [List.cons_append, ← ih cs2 rest h]

/-- Soundness of the anchored prefix match: the input is a consumed
prefix ending in the literal `" - "`, followed by the remaining tail. -/
theorem matchPrefix_sound (cs : List Char) (d t : String) (tail : List Char)
    (h : matchPrefix cs = some (d, t, tail)) :
    ∃ pre2, cs = (pre2 ++ [' ', '-', ' ']) ++ tail := by
  unfold matchPrefix at h
  cases h1 : takeDigits12 '/' cs with
  | none => rw [h1] at h; simp at h
  | some pr1 =>
  obtain ⟨dd, r1⟩ := pr1
  rw [h1] at h
  simp only [Option.bind_eq_bind, Option.some_bind] at h
  cases h2 : takeDigits12 '/' r1 with
  | none => rw [h2] at h; simp at h
  | some pr2 =>
  obtain ⟨mm, r2⟩ := pr2
  rw [h2] at h
  simp only [Option.bind_eq_bind, Option.some_bind] at h
  cases h3 : takeDigitsN 4 r2 with
  | none => rw [h3] at h; simp at h
  | some pr3 =>
  obtain ⟨yy, r3⟩ := pr3
  rw [h3] at h
  simp only [Option.bind_eq_bind, Option.some_bind] at h
  cases h4 : expectLit [',', ' '] r3 with
  | none => rw [h4] at h; simp at h
  | some r4 =>
  rw [h4] at h
  simp only [Option.bind_eq_bind, Option.some_bind] at h
  cases h5 : takeDigitsN 2 r4 with
  | none => rw [h5] at h; simp at h
  | some pr5 =>
  obtain ⟨hh, r5⟩ := pr5
  rw [h5] at h
  simp only [Option.bind_eq_bind, Option.some_bind] at h
  cases h6 : expectLit [':'] r5 with
  | none => rw [h6] at h; simp at h
  | some r6 =>
  rw [h6] at h
  simp only [Option.bind_eq_bind, Option.some_bind] at h
  cases h7 : takeDigitsN 2 r6 with
  | none => rw [h7] at h; simp at h
  | some pr7 =>
  obtain ⟨mi, r7⟩ := pr7
  rw [h7] at h
  simp only [Option.bind_eq_bind, Option.some_bind] at h
  cases h8 : expectLit [' ', '-', ' '] r7 with
  | none => rw [h8] at h; simp at h
  | some r8 =>
  rw [h8] at h
  simp only [Option.bind_eq_bind, Option.some_bind] at h
  simp only [Option.some.injEq, Prod.mk.injEq] at h
  obtain ⟨-, -, htl⟩ := h
  rw [htl] at h8
  refine ⟨dd ++ '/' :: mm ++ '/' :: yy ++ ',' :: ' ' :: hh ++ ':' :: mi, ?_⟩
  rw [takeDigits12_sound '/' cs dd r1 h1, takeDigits12_sound '/' r1 mm r2 h2,
    takeDigitsN_sound 4 r2 yy r3 h3, expectLit_sound [',', ' '] r3 r4 h4,
    takeDigitsN_sound 2 r4 hh r5 h5, expectLit_sound [':'] r5 r6 h6,
    takeDigitsN_sound 2 r6 mi r7 h7, expectLit_sound [' ', '-', ' '] r7 tail h8]
  simp

/-- Soundness and minimality of the lazy name scan worker: on success
the input splits as the newly consumed characters, the literal `": "`,
and the rest, and the consumed run stops at the FIRST `": "` occurrence
in the input. -/
theorem scanNameGo_sound :
    ∀ (input acc raw rest : List Char),
      scanNameGo acc input = some (raw, rest) →
      ∃ mid, raw = acc ++ mid ∧ input = mid ++ ':' :: ' ' :: rest ∧
        ∀ a b, input = a ++ ':' :: ' ' :: b → mid.length ≤ a.length := by
  intro input
  induction input with
  | nil => intro acc raw rest h; simp [scanNameGo] at h
  | cons c cs ih =>
    intro acc raw rest h
    rw [show scanNameGo acc (c :: cs) =
        (if c = ':' ∧ cs.head? = some ' ' then some (acc, cs.tail)
         else if c = '\n' then none
         else scanNameGo (acc ++ [c]) cs) from rfl] at h
    split_ifs at h with h1 h2
    · obtain ⟨rfl, hh⟩ := h1
      rcases cs with _ | ⟨c2, cs2⟩
      · simp at hh
      · simp only [List.head?_cons, Option.some.injEq] at hh
        subst hh
        simp only [List.tail_cons, Option.some.injEq, Prod.mk.injEq] at h
        obtain ⟨rfl, rfl⟩ := h
        exact ⟨[], by simp, by simp, fun a b hab => by simp⟩
    · obtain ⟨mid, hraw, hcs, hmin⟩ := ih (acc ++ [c]) raw rest h
      refine ⟨c :: mid, by simp [hraw], by simp [hcs], ?_⟩
      intro a b hab
      rcases a with _ | ⟨c3, a2⟩
      · simp only [List.nil_append, List.cons.injEq] at hab
        obtain ⟨rfl, rfl⟩ := hab
        exact absurd ⟨rfl, by simp⟩ h1
      · simp only [List.cons_append, List.cons.injEq] at hab
        obtain ⟨rfl, hcs2⟩ := hab
        have hle := hmin a2 b hcs2
        simp only [List.length_cons]
        omega

/-- Soundness and minimality of the lazy name capture `(.+?): `: the
captured run is nonempty and stops at the first `": "` that leaves at
least one captured character. -/
theorem scanName_sound (input raw rest : List Char)
    (h : scanName input = some (raw, rest)) :
    raw ≠ [] ∧ input = raw ++ ':' :: ' ' :: rest ∧
      ∀ a b, input = a ++ ':' :: ' ' :: b → a ≠ [] →
        raw.length ≤ a.length := by
  rcases input with _ | ⟨c, cs⟩
  · simp [scanName] at h
  · rw [show scanName (c :: cs) =
        (if c = '\n' then none else scanNameGo [c] cs) from rfl] at h
    split_ifs at h with h1
    obtain ⟨mid, hraw, hcs, hmin⟩ := scanNameGo_sound cs [c] raw rest h
    refine ⟨by simp [hraw], by simp [hraw, hcs], ?_⟩
    intro a b hab hne
    rcases a with _ | ⟨c3, a2⟩
    · exact absurd rfl hne
    · simp only [List.cons_append, List.cons.injEq] at hab
      obtain ⟨rfl, hcs2⟩ := hab
      have hle := hmin a2 b hcs2
      rw [hraw]
      simp only [List.length_append, List.length_cons, List.length_nil]
      omega

/-- Modelled from the claim text of C7: the sender would be the captured
name verbatim, with the split before the first parenthesis and the trim
applied only when the captured name contains a parenthesis.  To be
compared with the code, which applies `split('(')[0].strip()`
unconditionally. -/
def claimSenderClean (raw : List Char) : List Char :=
  if raw.contains '(' then pyStripList (raw.takeWhile (fun c => c ≠ '('))
  else raw

/-- Counterexample to claim C7: on the line
`1/1/2024, 09:00 - Bob : hi` the captured name run is `"Bob "`
(whitespace before the colon), it contains no parenthesis, so the claim
keeps it verbatim as `"Bob "`; the code strips it unconditionally and
produces sender `"Bob"`. -/
theorem c7_counterexample :
    (parse_line "1/1/2024, 09:00 - Bob : hi").map (fun m => m.sender) =
      some "Bob" ∧
    matchPrefix ("1/1/2024, 09:00 - Bob : hi").data =
      some ("1/1/2024", "09:00", "Bob : hi".data) ∧
    scanName ("Bob : hi".data) = some ("Bob ".data, "hi".data) ∧
    claimSenderClean ("Bob ".data) = "Bob ".data ∧
    ("Bob " : String) ≠ "Bob" :=
  ⟨by decide, by decide, by decide, by decide, by decide⟩

/-- Claim C7 as amended: for every line accepted by the grammar, the
line decomposes after the `" - "` separator into the shortest nonempty
name run followed by the first `": "`, and the sender is that run split
before the first `(` and then ALWAYS trimmed of surrounding whitespace
(not only when a parenthesis occurs). -/
theorem c7_amended (line : String) (msg : Message)
    (h : parse_line line = some msg) :
    ∃ pre raw rest, line.data = pre ++ raw ++ ':' :: ' ' :: rest ∧
      (∃ pre2, pre = pre2 ++ [' ', '-', ' ']) ∧
      raw ≠ [] ∧
      (∀ a b, raw ++ ':' :: ' ' :: rest = a ++ ':' :: ' ' :: b → a ≠ [] →
        raw.length ≤ a.length) ∧
      msg.sender = String.mk (pyStripList (raw.takeWhile (fun c => c ≠ '('))) := by
  unfold parse_line at h
  cases h1 : matchPrefix line.data with
  | none => rw [h1] at h; simp at h
  | some pr =>
  obtain ⟨d, t, tail⟩ := pr
  rw [h1] at h
  dsimp only [] at h
  cases h2 : scanName tail with
  | none => rw [h2] at h; simp at h
  | some pr2 =>
  obtain ⟨raw, rest0⟩ := pr2
  rw [h2] at h
  dsimp only [] at h
  simp only [Option.some.injEq] at h
  obtain ⟨pre2, hpre⟩ := matchPrefix_sound line.data d t tail h1
  obtain ⟨hraw_ne, htail, hmin⟩ := scanName_sound tail raw rest0 h2
  rw [htail] at hmin
  refine ⟨pre2 ++ [' ', '-', ' '], raw, rest0, ?_, ⟨pre2, rfl⟩, hraw_ne,
    hmin, ?_⟩
  · rw [hpre, htail]
    simp
  · rw [← h]

/-- Witness for the amended claim C7 at the Bob line of the spec. -/
theorem c7_witness :
    ∃ pre raw rest,
      ("1/1/2024, 09:05 - Bob (+1 555): hello").data =
        pre ++ raw ++ ':' :: ' ' :: rest ∧
      (∃ pre2, pre = pre2 ++ [' ', '-', ' ']) ∧
      raw ≠ [] ∧
      (∀ a b, raw ++ ':' :: ' ' :: rest = a ++ ':' :: ' ' :: b → a ≠ [] →
        raw.length ≤ a.length) ∧
      (Message.mk "1/1/2024" "09:05" "Bob" "hello").sender =
        String.mk (pyStripList (raw.takeWhile (fun c => c ≠ '('))) :=
  c7_amended "1/1/2024, 09:05 - Bob (+1 555): hello"
    (Message.mk "1/1/2024" "09:05" "Bob" "hello") (by decide)

/-! Claim C8. -/

theorem dropWhile_ws_append (ws rest : List Char)
    (h : ∀ c ∈ ws, pyIsSpace c = true) :
    (ws ++ rest).dropWhile pyIsSpace = rest.dropWhile pyIsSpace := by
  induction ws with
  | nil => rfl
  | cons c t ih =>
    rw [List.cons_append, List.dropWhile_cons_of_pos (h c (by simp))]
    exact ih (fun d hd => h d (by simp [hd]))

theorem pyStripWsLeft (ws l : String)
    (h : ∀ c ∈ ws.data, pyIsSpace c = true) :
    pyStrip (ws ++ l) = pyStrip l := by
  unfold pyStrip pyStripList
  rw [String.data_append, dropWhile_ws_append ws.data l.data h]

/-- Counterexample to claim C8: a grammar-conforming line prefixed with
leading whitespace DOES produce a Message record (the `strip()` call
removes leading whitespace too), contradicting the claim that no record
is produced. -/
theorem c8_counterexample :
    parse_chat ["   1/1/2024, 09:00 - A: hi"] =
      [{ date := "1/1/2024", time := "09:00", sender := "A",
         text := "hi" }] := by
  decide

/-- Claim C8 as amended: ingestion strips leading AND trailing
whitespace before parsing, so a line of whitespace followed by
grammar-conforming text parses exactly like the unprefixed line (and
does produce its record); the grammar match remains anchored at the
start of the stripped line, so non-whitespace junk before the date
yields no record. -/
theorem c8_amended :
    (∀ ws l : String, (∀ c ∈ ws.data, pyIsSpace c = true) →
      parse_line (pyStrip (ws ++ l)) = parse_line (pyStrip l)) ∧
    parse_chat ["x1/1/2024, 09:00 - A: hi"] = [] :=
  ⟨fun ws l h => by rw [pyStripWsLeft ws l h], by decide⟩

/-- Witness for the amended claim C8 at a concrete whitespace prefix. -/
theorem c8_witness :
    parse_line (pyStrip ("   " ++ "1/1/2024, 09:00 - A: hi")) =
      parse_line (pyStrip "1/1/2024, 09:00 - A: hi") :=
  c8_amended.1 "   " "1/1/2024, 09:00 - A: hi" (by decide)

/-! Claim C9. -/

/-- Claim C9: the participant filter keeps a message exactly when its
sender string is a member of the selected set, compared by exact string
equality; in particular selecting `"alice"` never keeps a message from
sender `"Alice"`. -/
theorem c9_participant_filter_exact (selected : List String)
    (msgs : List NMsg) (m : NMsg) :
    (m ∈ filter_participants selected msgs ↔
      m ∈ msgs ∧ m.sender ∈ selected) ∧
    filter_participants ["alice"] [⟨"Alice", "hello", some 0⟩] = [] := by
  constructor
  · simp [filter_participants, List.mem_filter]
  · decide

/-! Claim C10. -/

/-- Claim C10: the grammar checks digit counts only, so the line
`99/99/2024, 12:00 - A: x` parses into a Message record; calendar
invalidity surfaces only at normalization, which maps the record to the
sentinel (`none`) timestamp instead of raising an error. -/
theorem c10_digit_grammar_sentinel :
    parse_line "99/99/2024, 12:00 - A: x" =
      some { date := "99/99/2024", time := "12:00", sender := "A",
             text := "x" } ∧
    to_datetime "99/99/2024" "12:00" = none ∧
    normalize [{ date := "99/99/2024", time := "12:00", sender := "A",
                 text := "x" }] =
      [{ sender := "A", text := "x", ts := none }] :=
  ⟨by decide, by decide, by decide⟩

end WhatsappTemp
